import Mathlib

/-!
# Verification of the `dirc` directory-structure checker

Shallow embedding of the two source files of the repository:

* `src/dirc/spec.py`   — the indentation-based spec parser (`parse_spec`,
  `_normalize_pattern`, `_is_file_pattern`, `glob_has_magic`, `_expand_tabs`);
* `src/dirc/compiler.py` — the compiler that emits a standalone bash
  validator (`compile_to_bash`, `check_dir`, `compile_node`).

The emitted bash validator is modelled by a pure recursive interpreter over
a filesystem tree.  Bash pattern matching (`[[ name == pattern ]]` with
`shopt -s extglob`) is modelled by a tokenizing glob matcher supporting
literals, `*`, `?`, bracket classes and the `@(a|b)` alternation form that
`_normalize_pattern` produces.  Other extglob operators (`?(`, `*(`, `+(`,
`!(`) do not occur in any pattern the compiler generates from the claims'
specs and are not modelled; `(`, `)`, `|` outside `@(...)` are literals.

Recursive functions that are not structurally recursive are written with an
explicit fuel argument so that every definition evaluates by `decide`/`rfl`;
the bash validator never diverges on a finite tree, and all concrete runs in
this file use visibly sufficient fuel.
-/

/-! ## Character helpers -/

/-- Python `str.isspace` on the ASCII whitespace characters that can occur
in a spec line (space, tab, LF, CR, VT, FF). -/
def wsChar (c : Char) : Bool :=
  c == ' ' || c == '\t' || c == '\n' || c == '\r' || c == '\x0b' || c == '\x0c'

/-- Left strip of Python-style whitespace. -/
def lstripWs (cs : List Char) : List Char := cs.dropWhile (fun c => wsChar c)

/-- Right strip of Python-style whitespace. -/
def rstripWs (cs : List Char) : List Char := (lstripWs cs.reverse).reverse

/-- Python `s.strip()`. -/
def stripWs (cs : List Char) : List Char := rstripWs (lstripWs cs)

/-! ## Glob patterns: `glob_has_magic` and the bash matcher

`src/dirc/spec.py` line 13: `_GLOB_MAGIC = re.compile(r"[*?[]")`. -/

/-- `glob_has_magic` from `src/dirc/spec.py`: the string contains one of
`*`, `?`, `[`. -/
def globHasMagic (s : String) : Bool :=
  s.data.any (fun c => c == '*' || c == '?' || c == '[')

/-- One member of a bracket class: a single character or a range. -/
inductive ClsItem where
  | single (c : Char)
  | range (lo hi : Char)
deriving DecidableEq

/-- A token of a bash glob pattern. -/
inductive GTok where
  | lit (c : Char)
  | any
  | one
  | cls (neg : Bool) (items : List ClsItem)
  | alt (branches : List (List GTok))
deriving Inhabited

/-- Scan to the parenthesis closing an `@(`, counting nested parens;
returns the inside and the rest after the `)`. -/
def splitParen : Nat → List Char → Option (List Char × List Char)
  | _, [] => none
  | d, c :: cs =>
      if c == ')' then
        match d with
        | 0 => some ([], cs)
        | d' + 1 => (splitParen d' cs).map (fun p => (')' :: p.1, p.2))
      else if c == '(' then
        (splitParen (d + 1) cs).map (fun p => ('(' :: p.1, p.2))
      else (splitParen d cs).map (fun p => (c :: p.1, p.2))

/-- Split the inside of an `@(...)` at top-level `|` separators. -/
def splitAltBars (d : Nat) (cur : List Char) : List Char → List (List Char)
  | [] => [cur.reverse]
  | c :: cs =>
      if c == '|' then
        if d = 0 then cur.reverse :: splitAltBars 0 [] cs
        else splitAltBars d ('|' :: cur) cs
      else if c == '(' then splitAltBars (d + 1) ('(' :: cur) cs
      else if c == ')' then splitAltBars (d - 1) (')' :: cur) cs
      else splitAltBars d (c :: cur) cs

/-- Parse the body of a bracket class after a leading `[` (and after the
optional negation marker), accumulating items until the closing `]`.
A `]` directly after the opening (or the negation marker) is a literal
member, as in bash.  Returns the items and the rest after `]`. -/
def scanCls (first : Bool) (acc : List ClsItem) :
    List Char → Option (List ClsItem × List Char)
  | [] => none
  | ']' :: cs =>
      if first then scanCls false (acc ++ [.single ']']) cs
      else some (acc, cs)
  | lo :: '-' :: hi :: cs =>
      if hi == ']' then some (acc ++ [.single lo, .single '-'], cs)
      else scanCls false (acc ++ [.range lo hi]) cs
  | c :: cs => scanCls false (acc ++ [.single c]) cs

/-- Tokenize a bash glob pattern (fuel-recursive; `parseGlob` supplies
sufficient fuel).  An `@` not followed by `(`, an `@(` without a closing
`)`, and a `[` without a closing `]` are literal, as in bash. -/
def parseGlobF : Nat → List Char → List GTok
  | 0, _ => []
  | _ + 1, [] => []
  | f + 1, c :: cs =>
      if c == '*' then .any :: parseGlobF f cs
      else if c == '?' then .one :: parseGlobF f cs
      else if c == '@' then
        match cs with
        | '(' :: cs2 =>
            match splitParen 0 cs2 with
            | some (inside, rest) =>
                .alt ((splitAltBars 0 [] inside).map (parseGlobF f)) ::
                  parseGlobF f rest
            | none => .lit '@' :: parseGlobF f cs
        | _ => .lit '@' :: parseGlobF f cs
      else if c == '[' then
        let neg := match cs with
          | '!' :: _ => true
          | '^' :: _ => true
          | _ => false
        let body := if neg then cs.tail else cs
        match scanCls true [] body with
        | some (items, rest) => .cls neg items :: parseGlobF f rest
        | none => .lit '[' :: parseGlobF f cs
      else .lit c :: parseGlobF f cs

/-- Tokenize a bash glob pattern. -/
def parseGlob (cs : List Char) : List GTok := parseGlobF (cs.length + 1) cs

/-- Membership of a character in a bracket class. -/
def clsMatch (neg : Bool) (items : List ClsItem) (c : Char) : Bool :=
  let inside := items.any (fun it =>
    match it with
    | .single d => c == d
    | .range lo hi => decide (lo ≤ c) && decide (c ≤ hi))
  if neg then !inside else inside

/-- Token-level matcher (fuel-recursive; each step consumes either a token
or a name character, so `sizeOf toks + name.length + 1` fuel always
suffices and the wrappers below supply it). -/
def matchF : Nat → List GTok → List Char → Bool
  | 0, _, _ => false
  | _ + 1, [], n => n.isEmpty
  | f + 1, .lit c :: ps, n =>
      match n with
      | [] => false
      | d :: ns => c == d && matchF f ps ns
  | f + 1, .one :: ps, n =>
      match n with
      | [] => false
      | _ :: ns => matchF f ps ns
  | f + 1, .cls neg items :: ps, n =>
      match n with
      | [] => false
      | d :: ns => clsMatch neg items d && matchF f ps ns
  | f + 1, .any :: ps, n =>
      matchF f ps n ||
        (match n with
         | [] => false
         | _ :: ns => matchF f (.any :: ps) ns)
  | f + 1, .alt bs :: ps, n => bs.any (fun b => matchF f (b ++ ps) n)

/-- Bash `[[ name == pattern ]]` with `extglob` enabled, as used by both
`matches_any` and `is_ignored` in the emitted script.  The fuel
`pat.length + name.length + 1` dominates the recursion depth of `matchF`
(each step either drops a token whose source weight is at least one
character, or drops one character of the name). -/
def gmatchStr (pat name : String) : Bool :=
  matchF (pat.length + name.length + 1) (parseGlob pat.data) name.data

/-- `matches_any` from the emitted bash prelude: the name matches some
pattern in the list. -/
def matchesAny (name : String) (pats : List String) : Bool :=
  pats.any (fun p => gmatchStr p name)

/-! ## `src/dirc/spec.py`: pattern classification and normalization -/

/-- The `_EXT_SHORTHAND` regex `^\.[A-Za-z0-9]{1,5}$`. -/
def extShorthand (cs : List Char) : Bool :=
  match cs with
  | '.' :: rest =>
      decide (1 ≤ rest.length) && decide (rest.length ≤ 5) &&
        rest.all (fun c => c.isAlphanum)
  | _ => false

/-- `_is_file_pattern` from `src/dirc/spec.py` lines 21-29. -/
def isFilePattern (s : String) : Bool :=
  let t := stripWs s.data
  extShorthand t ||
    t.any (fun c => c == '*' || c == '?' || c == '[' || c == '\x7b')

/-- Head test used for start-of-line `#` and leading-`.` checks. -/
def headIs (c : Char) : List Char → Bool
  | d :: _ => d == c
  | [] => false

/-- `re.sub(r"\s+", "", raw.strip())`: remove every whitespace character. -/
def removeWs (cs : List Char) : List Char := cs.filter (fun c => !wsChar c)

/-- Python `sep.join(parts)`. -/
def joinWith (sep : List Char) : List (List Char) → List Char
  | [] => []
  | [p] => p
  | p :: ps => p ++ sep ++ joinWith sep ps

/-- Python `body.split(",")`. -/
def splitComma : List Char → List (List Char)
  | [] => [[]]
  | c :: rest =>
      if c == ',' then [] :: splitComma rest
      else
        match splitComma rest with
        | p :: ps => (c :: p) :: ps
        | [] => [[c]]

/-- The brace-list rewriting of `_normalize_pattern`, i.e.
`re.sub(r"\x7b([^\x7d]+)\x7d", "@(" ++ "|".join(nonempty parts) ++ ")", s)`:
scan left to right; a `\x7b` followed (not immediately) by a `\x7d` opens a
brace list whose comma-separated parts (empty parts dropped) become an
extglob alternation; an empty pair `\x7b\x7d` and an unclosed `\x7b` stay
literal.  The first argument is `none` while scanning, `some acc` while
inside a candidate brace body (accumulated reversed). -/
def braceGo : Option (List Char) → List Char → List Char
  | none, [] => []
  | none, c :: rest =>
      if c == '\x7b' then braceGo (some []) rest else c :: braceGo none rest
  | some acc, [] => '\x7b' :: acc.reverse
  | some acc, c :: rest =>
      if c == '\x7d' then
        if acc.isEmpty then '\x7b' :: '\x7d' :: braceGo none rest
        else
          '@' :: '(' ::
            (joinWith ['|'] ((splitComma acc.reverse).filter (fun p => p ≠ [])) ++
              (')' :: braceGo none rest))
      else braceGo (some (c :: acc)) rest

/-- `_normalize_pattern` from `src/dirc/spec.py` lines 32-44. -/
def normalizePattern (raw : String) : String :=
  let s := removeWs raw.data
  if s = "*.*".data then "*"
  else if headIs '.' s && !s.contains '/' then
    String.mk ('*' :: s)
  else if s.contains '\x7b' && s.contains '\x7d' then String.mk (braceGo none s)
  else String.mk s

/-! ## `src/dirc/spec.py`: the indentation parser -/

/-- `DirectoryRule` from `src/dirc/spec.py` lines 51-56. -/
inductive DirectoryRule where
  | mk (name : String) (subdirs : List DirectoryRule)
      (file_patterns : List String) (required_files : List String)

def DirectoryRule.name : DirectoryRule → String
  | .mk n _ _ _ => n

def DirectoryRule.subdirs : DirectoryRule → List DirectoryRule
  | .mk _ s _ _ => s

def DirectoryRule.file_patterns : DirectoryRule → List String
  | .mk _ _ f _ => f

def DirectoryRule.required_files : DirectoryRule → List String
  | .mk _ _ _ r => r

/-- An open node on the parser stack; the lists are kept reversed while the
node is open (Python appends in place). -/
structure Frame where
  name : String
  subdirsRev : List DirectoryRule
  filePatsRev : List String
  reqFilesRev : List String

/-- Parser state between lines: the stack of open frames (top first, the
synthetic root at the bottom), the established indentation unit, and the
level of the immediately preceding file-classified line. -/
structure PState where
  stack : List Frame
  indentUnit : Option Nat
  lastFile : Option Nat

/-- The four structural `SpecError`s of `parse_spec` (the message text is
abstracted to a kind; every message also reports the 1-based line). -/
inductive PEKind where
  | invalidIndent
  | notMultiple
  | jump
  | fileChildren
deriving DecidableEq

structure PError where
  line : Nat
  kind : PEKind
deriving DecidableEq

/-- Close a frame into a `DirectoryRule` (undoing the reversed lists). -/
def finalizeFrame (f : Frame) : DirectoryRule :=
  .mk f.name f.subdirsRev.reverse f.filePatsRev.reverse f.reqFilesRev.reverse

/-- `stack.pop()`: the popped top becomes the next completed child of the
frame below it. -/
def mergeInto (top parent : Frame) : Frame :=
  { parent with subdirsRev := finalizeFrame top :: parent.subdirsRev }

/-- `while len(stack) > n: stack.pop()` (fuel-recursive on the stack
length, which `popTo` supplies). -/
def popGo : Nat → List Frame → Nat → List Frame
  | 0, st, _ => st
  | f + 1, st, n =>
      if st.length ≤ n then st
      else
        match st with
        | t :: p :: rest => popGo f (mergeInto t p :: rest) n
        | _ => st

def popTo (st : List Frame) (n : Nat) : List Frame := popGo st.length st n

/-- `parent.file_patterns.append(pat)` on the top frame. -/
def appendFilePat (st : List Frame) (pat : String) : List Frame :=
  match st with
  | f :: rest => { f with filePatsRev := pat :: f.filePatsRev } :: rest
  | [] => []

/-- `parent.required_files.append(name)` on the top frame. -/
def appendReqFile (st : List Frame) (nm : String) : List Frame :=
  match st with
  | f :: rest => { f with reqFilesRev := nm :: f.reqFilesRev } :: rest
  | [] => []

/-- Python `line.expandtabs(4)` column bookkeeping. -/
def expandTabsGo (col : Nat) : List Char → List Char
  | [] => []
  | c :: rest =>
      if c == '\t' then
        let k := 4 - col % 4
        List.replicate k ' ' ++ expandTabsGo (col + k) rest
      else c :: expandTabsGo (col + 1) rest

/-- `_expand_tabs` from `src/dirc/spec.py` lines 47-48. -/
def expandTabs4 (cs : List Char) : List Char := expandTabsGo 0 cs

/-- The line boundaries of Python `str.splitlines()`: `\n`, `\r`
(with `\r\n` counting as one boundary), `\v`, `\f`, the separator
controls `\x1c`-`\x1e`, NEL, and the Unicode line/paragraph separators. -/
def lineSep (c : Char) : Bool :=
  c == '\n' || c == '\r' || c == '\x0b' || c == '\x0c' || c == '\x1c' ||
    c == '\x1d' || c == '\x1e' || c == '\x85' || c == '\u2028' || c == '\u2029'

/-- Split at every line boundary, one pass; `afterCR` records that the
previous character was a `\r`, so that a following `\n` completes the
same `\r\n` boundary instead of opening a new one. -/
def splitNLGo (afterCR : Bool) : List Char → List (List Char)
  | [] => [[]]
  | c :: rest =>
      if afterCR && c == '\n' then splitNLGo false rest
      else if c == '\r' then [] :: splitNLGo true rest
      else if lineSep c then [] :: splitNLGo false rest
      else
        match splitNLGo false rest with
        | p :: ps => (c :: p) :: ps
        | [] => [[c]]

def splitNL (cs : List Char) : List (List Char) := splitNLGo false cs

/-- Whether the text ends in a line boundary (in which case `splitlines`
produces no final empty line). -/
def lastIsSep (cs : List Char) : Bool :=
  match cs.getLast? with
  | some c => lineSep c
  | none => false

/-- Python `text.splitlines()`. -/
def splitLines (cs : List Char) : List (List Char) :=
  match cs with
  | [] => []
  | _ => if lastIsSep cs then (splitNL cs).dropLast else splitNL cs

/-- The inline-comment scan of `parse_spec` lines 98-101: truncate at the
first `#` that is at the start or preceded by whitespace. -/
def sicGo (atBreak : Bool) : List Char → List Char
  | [] => []
  | c :: rest => if c == '#' && atBreak then [] else c :: sicGo (wsChar c) rest

def stripInlineComment (cs : List Char) : List Char := sicGo true cs

/-- `len(expanded) - len(expanded.lstrip(" "))`. -/
def countLeadingSpaces (cs : List Char) : Nat :=
  (cs.takeWhile (fun c => c == ' ')).length

/-- `next_nonempty_line` from `parse_spec` lines 77-85: the first later
line that is neither blank nor a whole-line comment. -/
def nextNonempty (rest : List (List Char)) : Option (List Char) :=
  rest.find? (fun l => !(stripWs l).isEmpty && !headIs '#' (lstripWs l))

/-- Lines 106-117 of `parse_spec`: establish or reuse the indentation
unit and compute the line's level. -/
def unitLevelOf (indent : Nat) (st : PState) (idx : Nat) :
    Except PError (Option Nat × Nat) :=
  if indent = 0 then .ok (st.indentUnit, 0)
  else
    match st.indentUnit with
    | none =>
        if indent = 0 then .error ⟨idx, .invalidIndent⟩
        else if indent % indent ≠ 0 then .error ⟨idx, .notMultiple⟩
        else .ok (some indent, indent / indent)
    | some u =>
        if u = 0 then .error ⟨idx, .invalidIndent⟩
        else if indent % u ≠ 0 then .error ⟨idx, .notMultiple⟩
        else .ok (some u, indent / u)

/-- Lines 119-160 of `parse_spec`: everything after the level is known. -/
def processTail (unit' : Option Nat) (level indent : Nat)
    (content0 : List Char) (lookNi : Option Nat) (idx : Nat) (st : PState) :
    Except PError PState :=
  if (match st.lastFile with | some l => decide (l < level) | none => false) then
    .error ⟨idx, .fileChildren⟩
  else
    let stack1 := popTo st.stack (level + 1)
    if stack1.length ≠ level + 1 then .error ⟨idx, .jump⟩
    else
      let dirForced := content0.getLast? == some '/' && !(content0 == ['/'])
      let content := if dirForced then content0.dropLast else content0
      let hasChildren :=
        match lookNi with
        | none => false
        | some ni =>
            match unit' with
            | none => decide (indent < ni)
            | some u =>
                decide (indent < ni) && ni % u == 0 && decide (level < ni / u)
      if !dirForced && !hasChildren && isFilePattern (String.mk content) then
        .ok ⟨appendFilePat stack1 (normalizePattern (String.mk content)),
             unit', some level⟩
      else if !dirForced && !hasChildren && content.contains '.' &&
          !globHasMagic (String.mk content) && !content.contains '\x7b' then
        .ok ⟨appendReqFile stack1 (String.mk content), unit', some level⟩
      else
        .ok ⟨⟨String.mk content, [], [], []⟩ :: stack1, unit', none⟩

/-- The body of the `for idx0, raw in enumerate(raw_lines)` loop of
`parse_spec` (lines 87-160) after the blank/comment guards, for one line,
given the measured indentation `indent`, the text after the indentation
`body`, and the measured indentation `lookNi` of the lookahead line (if
any). -/
def processCore (indent : Nat) (body : List Char) (lookNi : Option Nat)
    (idx : Nat) (st : PState) : Except PError PState :=
  let contentRaw := rstripWs (stripInlineComment (rstripWs body))
  if contentRaw.isEmpty then .ok st
  else
    match unitLevelOf indent st idx with
    | .error e => .error e
    | .ok (unit', level) =>
        processTail unit' level indent (stripWs contentRaw) lookNi idx st

/-- One whole iteration of the line loop: skip blank and whole-line-comment
lines, measure the indentation of the tab-expanded line and of the
lookahead line, and hand over to `processCore`.  `rest` is the list of the
lines after this one (used only by the lookahead), `idx` the 1-based line
number. -/
def processLine (raw : List Char) (rest : List (List Char)) (idx : Nat)
    (st : PState) : Except PError PState :=
  if (stripWs raw).isEmpty then .ok st
  else if headIs '#' (lstripWs raw) then .ok st
  else
    processCore (countLeadingSpaces (expandTabs4 raw))
      ((expandTabs4 raw).drop (countLeadingSpaces (expandTabs4 raw)))
      ((nextNonempty rest).map (fun nxt => countLeadingSpaces (expandTabs4 nxt)))
      idx st

/-- Process the remaining lines; `idx` is the 1-based number of the first. -/
def runLines : List (List Char) → Nat → PState → Except PError PState
  | [], _, st => .ok st
  | raw :: rest, idx, st =>
      match processLine raw rest idx st with
      | .error e => .error e
      | .ok st' => runLines rest (idx + 1) st'

/-- `root = DirectoryRule(name="."); stack = [root]`. -/
def initPState : PState := ⟨[⟨".", [], [], []⟩], none, none⟩

/-- Close every still-open frame at end of input, yielding the root rule. -/
def finalizeStack (st : List Frame) : DirectoryRule :=
  match st with
  | [] => .mk "." [] [] []
  | f :: rest => finalizeFrame (rest.foldl (fun top parent => mergeInto top parent) f)

/-- `parse_spec` from `src/dirc/spec.py` lines 69-162 (the `Spec` wrapper
only carries the root rule). -/
def parse_spec (text : String) : Except PError DirectoryRule :=
  match runLines (splitLines text.data) 1 initPState with
  | .error e => .error e
  | .ok st => .ok (finalizeStack st.stack)

example :
    parse_spec "folder1\n    .png\nfolder2\n    folder2-*.*\n" =
      .ok (.mk "."
        [.mk "folder1" [] ["*.png"] [], .mk "folder2" [] ["folder2-*.*"] []]
        [] []) := by
  rfl

/-! ## `src/dirc/compiler.py`: the emitted validator

The emitted bash script is a deterministic recursive procedure over the
real filesystem; we model the filesystem as a tree and the script as a pure
interpreter.  Directory entries are enumerated in the list order of the
model (bash's `"$path"/*` with `dotglob` enumerates every entry, sorted;
the claims under study do not depend on the sort, and concrete runs below
list entries in sorted order). -/

/-- A filesystem node: a regular file or a directory with named entries. -/
inductive FSNode where
  | file
  | dir (entries : List (String × FSNode))

/-- Entry lookup in one directory (first match; real directories have
distinct names). -/
def childNode (es : List (String × FSNode)) (nm : String) : Option FSNode :=
  (es.find? (fun e => e.1 == nm)).map (fun e => e.2)

/-- Resolve a relative path (list of components) from a node. -/
def resolve : FSNode → List String → Option FSNode
  | n, [] => some n
  | .file, _ :: _ => none
  | .dir es, p :: ps =>
      match childNode es p with
      | none => none
      | some n => resolve n ps

/-- `[[ -d $ROOT/<comps> ]]`. -/
def isDirAt (root : FSNode) (comps : List String) : Bool :=
  match resolve root comps with
  | some (.dir _) => true
  | _ => false

/-- `[[ -f $ROOT/<comps> ]]`. -/
def isFileAt (root : FSNode) (comps : List String) : Bool :=
  match resolve root comps with
  | some .file => true
  | _ => false

/-- The entries of the directory at `comps` (empty when absent, as with
`nullglob`). -/
def entriesAt (root : FSNode) (comps : List String) : List (String × FSNode) :=
  match resolve root comps with
  | some (.dir es) => es
  | _ => []

/-- The six `fail` causes of the emitted script. -/
inductive Cause where
  | missingDirectory
  | missingRequiredDirectory
  | missingRequiredFile
  | unexpectedDirectory
  | unexpectedFile
  | ambiguousDirectoryRule
deriving DecidableEq

/-- A diagnostic: the cause together with the path string exactly as the
script interpolates it into the message. -/
structure Diag where
  cause : Cause
  path : String
deriving DecidableEq

/-- The text the script passes to `fail` (it is printed after `dirc: `). -/
def renderDiag (d : Diag) : String :=
  match d.cause with
  | .missingDirectory => "missing directory: " ++ d.path
  | .missingRequiredDirectory => "missing required directory: " ++ d.path
  | .missingRequiredFile => "missing required file: " ++ d.path
  | .unexpectedDirectory => "unexpected directory: " ++ d.path
  | .unexpectedFile => "unexpected file: " ++ d.path
  | .ambiguousDirectoryRule => "ambiguous directory rule for: " ++ d.path

/-- Outcome of a (sub)run of the script: success, the first `fail` (which
`exit 1`s the whole script), or fuel exhaustion of the model (never reached
with the fuel used below). -/
inductive VResult where
  | ok
  | fail (d : Diag)
  | out
deriving DecidableEq

/-- Sequencing: a `fail` aborts everything after it (bash `exit 1`). -/
def vthen : VResult → VResult → VResult
  | .ok, b => b
  | .fail d, _ => .fail d
  | .out, _ => .out

/-- First failure in a list of sequential check results. -/
def vseq : List VResult → VResult
  | [] => .ok
  | r :: rs => vthen r (vseq rs)

/-- `${rel%/}`. -/
def stripTrailSlash (s : String) : String :=
  match s.data.getLast? with
  | some '/' => String.mk s.data.dropLast
  | _ => s

/-- `${rel%/}/$name`. -/
def relChild (rel nm : String) : String := stripTrailSlash rel ++ "/" ++ nm

/-- The compiler configuration (`CompileOptions`) together with the
validated root tree; `ignore` is the effective `IGNORE_BASENAMES` array. -/
structure Config where
  ignore : List String
  allowExtraEverywhere : Bool
  strictRoot : Bool
  root : FSNode

/-- `is_ignored` from the emitted prelude. -/
def isIgnored (ignore : List String) (base : String) : Bool :=
  matchesAny base ignore

/-- The `required_dirs` loop of `check_dir` (lines 117-119 of
`compiler.py`). -/
def reqDirsCheck (root : FSNode) (rel : String) (comps : List String) :
    List String → VResult
  | [] => .ok
  | q :: qs =>
      if isDirAt root (comps ++ [q]) then reqDirsCheck root rel comps qs
      else .fail ⟨.missingRequiredDirectory, relChild rel q⟩

/-- The `required_files` loop of `check_dir` (lines 121-123). -/
def reqFilesCheck (root : FSNode) (rel : String) (comps : List String) :
    List String → VResult
  | [] => .ok
  | q :: qs =>
      if isFileAt root (comps ++ [q]) then reqFilesCheck root rel comps qs
      else .fail ⟨.missingRequiredFile, relChild rel q⟩

/-- The entry scan of `check_dir` (lines 125-151): skip ignored basenames,
then test directories against the allowed-directory patterns and other
entries against the allowed-file patterns, tolerating mismatches only when
`allow_extra` is set. -/
def scanEntries (ignore allowedDirs allowedFiles : List String)
    (allowExtra : Bool) (rel : String) : List (String × FSNode) → VResult
  | [] => .ok
  | (base, n) :: es =>
      if isIgnored ignore base then
        scanEntries ignore allowedDirs allowedFiles allowExtra rel es
      else
        match n with
        | .dir _ =>
            if matchesAny base allowedDirs then
              scanEntries ignore allowedDirs allowedFiles allowExtra rel es
            else if allowExtra then
              scanEntries ignore allowedDirs allowedFiles allowExtra rel es
            else .fail ⟨.unexpectedDirectory, relChild rel base⟩
        | .file =>
            if matchesAny base allowedFiles then
              scanEntries ignore allowedDirs allowedFiles allowExtra rel es
            else if allowExtra then
              scanEntries ignore allowedDirs allowedFiles allowExtra rel es
            else .fail ⟨.unexpectedFile, relChild rel base⟩

/-- `check_dir` from the emitted prelude (lines 99-152 of `compiler.py`):
missing-directory test, required directories, required files, entry scan,
in that order. -/
def check_dir (root : FSNode) (ignore : List String) (rel : String)
    (comps : List String)
    (allowedDirs allowedFiles requiredDirs requiredFiles : List String)
    (allowExtra : Bool) : VResult :=
  match resolve root comps with
  | some (.dir es) =>
      vthen (reqDirsCheck root rel comps requiredDirs)
        (vthen (reqFilesCheck root rel comps requiredFiles)
          (scanEntries ignore allowedDirs allowedFiles allowExtra rel es))
  | _ => .fail ⟨.missingDirectory, rel⟩

/-- The per-node tables computed by `compile_node` (lines 167-170). -/
def allowedDirsOf (r : DirectoryRule) : List String :=
  r.subdirs.map (fun c => c.name)

def allowedFilesOf (r : DirectoryRule) : List String :=
  r.file_patterns ++ r.required_files

def literalChildren (cs : List DirectoryRule) : List DirectoryRule :=
  cs.filter (fun c => !globHasMagic c.name)

def requiredDirsOf (r : DirectoryRule) : List String :=
  (literalChildren r.subdirs).map (fun c => c.name)

def literalNames (cs : List DirectoryRule) : List String :=
  (literalChildren cs).map (fun c => c.name)

/-- The four mutually recursive phases of a generated `rule_<n>` function,
fused into one fuel-indexed interpreter so that every concrete run reduces
definitionally.  One unit of fuel is consumed per interpreter step; the
recursion depth of a run is bounded by the rule tree and entry lists, and
every concrete run below uses visibly sufficient fuel. -/
inductive Call where
  | node (r : DirectoryRule) (rel : String) (comps : List String)
  | lits (cs : List DirectoryRule) (rel : String) (comps : List String)
  | wild (cs : List DirectoryRule) (entries : List (String × FSNode))
      (rel : String) (comps : List String)
  | wentry (cs : List DirectoryRule) (matched : Bool) (base : String)
      (rel : String) (comps : List String)

/-- The interpreter of the emitted script.

* `.node r rel comps` is a call `rule_<n> "$rel"` for the node compiled
  from `r`: the `allow_extra` computation (line 188), the `check_dir` call
  (line 191), direct calls for literal children (lines 197-200), and — when
  wildcard children exist — the re-scan of the node's actual entries
  (lines 202-230).
* `.lits` runs the literal-child calls in declaration order.
* `.wild` is the `for entry in dirs` loop: skip non-directories, ignored
  basenames, and basenames equal to a literal child name (the `case`
  statement), then process the entry against the wildcard children.
* `.wentry` is the unrolled per-pattern `if` chain: on a match with
  `matched` already set, `fail ambiguous`; otherwise recurse into the
  matching child, set `matched`, and continue with the later patterns. -/
def run (cfg : Config) : Nat → Call → VResult
  | 0, _ => .out
  | f + 1, .node r rel comps =>
      let allowExtra := cfg.allowExtraEverywhere ||
        (rel == "." && !cfg.strictRoot)
      vthen
        (check_dir cfg.root cfg.ignore rel comps (allowedDirsOf r)
          (allowedFilesOf r) (requiredDirsOf r) r.required_files allowExtra)
        (vthen (run cfg f (.lits (literalChildren r.subdirs) rel comps))
          (if r.subdirs.any (fun c => globHasMagic c.name) then
            run cfg f (.wild r.subdirs (entriesAt cfg.root comps) rel comps)
          else .ok))
  | _ + 1, .lits [] _ _ => .ok
  | f + 1, .lits (c :: cs) rel comps =>
      vthen (run cfg f (.node c (relChild rel c.name) (comps ++ [c.name])))
        (run cfg f (.lits cs rel comps))
  | _ + 1, .wild _ [] _ _ => .ok
  | f + 1, .wild cs ((base, n) :: es) rel comps =>
      match n with
      | .file => run cfg f (.wild cs es rel comps)
      | .dir _ =>
          if isIgnored cfg.ignore base then run cfg f (.wild cs es rel comps)
          else if (literalNames cs).contains base then
            run cfg f (.wild cs es rel comps)
          else
            vthen (run cfg f (.wentry cs false base rel comps))
              (run cfg f (.wild cs es rel comps))
  | _ + 1, .wentry [] _ _ _ _ => .ok
  | f + 1, .wentry (c :: cs) matched base rel comps =>
      if globHasMagic c.name then
        if gmatchStr c.name base then
          if matched then .fail ⟨.ambiguousDirectoryRule, relChild rel base⟩
          else
            vthen (run cfg f (.node c (relChild rel base) (comps ++ [base])))
              (run cfg f (.wentry cs true base rel comps))
        else run cfg f (.wentry cs matched base rel comps)
      else run cfg f (.wentry cs matched base rel comps)

/-- The driver at the bottom of the script: `rule_1 "."`. -/
def validate (cfg : Config) (fuel : Nat) (r : DirectoryRule) : VResult :=
  run cfg fuel (.node r "." [])

/-- The `ignore_items` computation of `compile_to_bash` (lines 58-62):
the user list, then `.git` and the spec file's basename if absent. -/
def effectiveIgnore (ignore : List String) (specBasename : String) :
    List String :=
  let l1 := if ignore.contains ".git" then ignore else ignore ++ [".git"]
  if l1.contains specBasename then l1 else l1 ++ [specBasename]

/-- `[[ -d $p ]]` against a world mapping path arguments to trees. -/
def isDirW (world : String → Option FSNode) (p : String) : Bool :=
  match world p with
  | some (.dir _) => true
  | _ => false

/-- The `ROOT` prelude of the emitted script (lines 52 and 67-69 of
`compiler.py`): `ROOT="${1:-.}"`, then if a non-empty first argument was
given but `ROOT` is not a directory, `ROOT="."`. -/
def resolveRoot (world : String → Option FSNode) (arg : Option String) :
    String :=
  let root := match arg with
    | none => "."
    | some a => if a == "" then "." else a
  if (match arg with | some a => a != "" | none => false) && !isDirW world root
  then "." else root

/-- A whole invocation of the emitted script on a root-path argument: pick
the root directory, then run the driver against the tree found there (the
current directory `"."` always exists in the world). -/
def runScript (world : String → Option FSNode) (arg : Option String)
    (ignore : List String) (allowExtraEverywhere strictRoot : Bool)
    (fuel : Nat) (r : DirectoryRule) : VResult :=
  let t := (world (resolveRoot world arg)).getD (.dir [])
  validate ⟨ignore, allowExtraEverywhere, strictRoot, t⟩ fuel r

/-! ## Lemmas about the glob matcher -/

theorem matchF_nil_fuel (f : Nat) : matchF f [] [] = true ∨ f = 0 := by
  cases f with
  | zero => exact Or.inr rfl
  | succ f => exact Or.inl rfl

/-- `*` consumes any name given one unit of fuel per character plus two. -/
theorem matchF_star (cs : List Char) : ∀ (f : Nat),
    matchF (f + cs.length + 2) [GTok.any] cs = true := by
  induction cs with
  | nil => intro f; rfl
  | cons c cs ih =>
      intro f
      exact ih f

theorem matchF_star_any (cs : List Char) (f : Nat) (h : cs.length + 2 ≤ f) :
    matchF f [GTok.any] cs = true := by
  obtain ⟨k, rfl⟩ : ∃ k, f = k + cs.length + 2 := ⟨f - (cs.length + 2), by omega⟩
  exact matchF_star cs k

/-! ## Lemmas about `_normalize_pattern` and the tokenizer -/

theorem joinWith_ne_nil {alts : List (List Char)}
    (h : ∃ a ∈ alts, a ≠ []) (s : Char) (ss : List Char) :
    joinWith (s :: ss) alts ≠ [] := by
  obtain ⟨a, ha, hane⟩ := h
  cases alts with
  | nil => simp at ha
  | cons x rest =>
      cases rest with
      | nil =>
          have : a = x := by simpa using ha
          subst this
          simpa [joinWith] using hane
      | cons y r =>
          show x ++ (s :: ss) ++ joinWith (s :: ss) (y :: r) ≠ []
          simp

/-- **C4**: Normalizing the pattern token `*.*` yields a pattern (`*`) that
matches every basename, including basenames containing no dot; normalizing
the token `.svg` yields `*.svg`, which matches `photo.svg` and does not
match `photo.svg.bak`. -/
theorem C4_normalize_star_and_ext :
    normalizePattern "*.*" = "*" ∧
    (∀ name : String, gmatchStr (normalizePattern "*.*") name = true) ∧
    normalizePattern ".svg" = "*.svg" ∧
    gmatchStr (normalizePattern ".svg") "photo.svg" = true ∧
    gmatchStr (normalizePattern ".svg") "photo.svg.bak" = false := by
  refine ⟨rfl, ?_, rfl, by decide, by decide⟩
  intro n
  show matchF ("*".length + n.length + 1) (parseGlob "*".data) n.data = true
  rw [show parseGlob "*".data = [GTok.any] from rfl]
  apply matchF_star_any
  have h1 : "*".length = 1 := rfl
  have h2 : n.length = n.data.length := rfl
  omega

theorem vthen_assoc (a b c : VResult) :
    vthen (vthen a b) c = vthen a (vthen b c) := by
  cases a <;> cases b <;> rfl

theorem vthen_ok_right (a : VResult) : vthen a .ok = a := by
  cases a <;> rfl

/-- The `allow_extra` computation of a generated `rule_<n>` function
(line 188 of `compiler.py`). -/
def allowExtraOf (cfg : Config) (rel : String) : Bool :=
  cfg.allowExtraEverywhere || (rel == "." && !cfg.strictRoot)

/-- Stage 1: `[[ -d $path ]] || fail "missing directory: $rel"`. -/
def stageMissing (cfg : Config) (rel : String) (comps : List String) : VResult :=
  match resolve cfg.root comps with
  | some (.dir _) => .ok
  | _ => .fail ⟨.missingDirectory, rel⟩

/-- Stage 2: the required-directory loop. -/
def stageReqDirs (cfg : Config) (rel : String) (comps : List String)
    (r : DirectoryRule) : VResult :=
  reqDirsCheck cfg.root rel comps (requiredDirsOf r)

/-- Stage 3: the required-file loop. -/
def stageReqFiles (cfg : Config) (rel : String) (comps : List String)
    (r : DirectoryRule) : VResult :=
  reqFilesCheck cfg.root rel comps r.required_files

/-- Stage 4: the extra-entry scan over the node's actual entries. -/
def stageScan (cfg : Config) (rel : String) (comps : List String)
    (r : DirectoryRule) : VResult :=
  match resolve cfg.root comps with
  | some (.dir es) =>
      scanEntries cfg.ignore (allowedDirsOf r) (allowedFilesOf r)
        (allowExtraOf cfg rel) rel es
  | _ => .ok

/-- Stage 5: recursion into literal children. -/
def stageLits (cfg : Config) (f : Nat) (rel : String) (comps : List String)
    (r : DirectoryRule) : VResult :=
  run cfg f (.lits (literalChildren r.subdirs) rel comps)

/-- Stage 6: the wildcard-children re-scan. -/
def stageWild (cfg : Config) (f : Nat) (rel : String) (comps : List String)
    (r : DirectoryRule) : VResult :=
  if r.subdirs.any (fun c => globHasMagic c.name) then
    run cfg f (.wild r.subdirs (entriesAt cfg.root comps) rel comps)
  else .ok

/-- **C2**: a compiled node procedure is exactly the sequential composition
of the six checks in their fixed order — missing-directory, required
directories, required files, extra-entry scan, literal-child recursion,
wildcard-child recursion — and the sequencing reports the first failure and
stops there (`vseq` laws), with at most one diagnostic ever produced. -/
theorem C2_check_order (cfg : Config) (f : Nat) (r : DirectoryRule)
    (rel : String) (comps : List String) :
    run cfg (f + 1) (.node r rel comps) =
      vseq [stageMissing cfg rel comps,
        stageReqDirs cfg rel comps r,
        stageReqFiles cfg rel comps r,
        stageScan cfg rel comps r,
        stageLits cfg f rel comps r,
        stageWild cfg f rel comps r] ∧
    (∀ (d : Diag) (rs : List VResult), vseq (.fail d :: rs) = .fail d) ∧
    (∀ rs : List VResult, vseq (.ok :: rs) = vseq rs) := by
  refine ⟨?_, fun d rs => rfl, fun rs => rfl⟩
  show vthen
      (check_dir cfg.root cfg.ignore rel comps (allowedDirsOf r)
        (allowedFilesOf r) (requiredDirsOf r) r.required_files
        (allowExtraOf cfg rel))
      (vthen (run cfg f (.lits (literalChildren r.subdirs) rel comps))
        (if r.subdirs.any (fun c => globHasMagic c.name) then
          run cfg f (.wild r.subdirs (entriesAt cfg.root comps) rel comps)
        else .ok)) = _
  unfold check_dir vseq stageMissing stageReqDirs stageReqFiles stageScan
    stageLits stageWild
  cases hres : resolve cfg.root comps with
  | none => simp [vthen]
  | some n =>
      cases n with
      | file => simp [vthen]
      | dir es =>
          simp only [vseq, vthen_ok_right, vthen_assoc]
          rfl

/-! ## Claim C3: default root leniency, strict subdirectories -/

/-- A one-subdirectory rule tree: `src` declared under the root. -/
def ruleSrc : DirectoryRule := .mk "." [.mk "src" [] [] []] [] []

/-- A root containing the declared `src` plus an undeclared `README.md`. -/
def fsReadme : FSNode := .dir [("README.md", .file), ("src", .dir [])]

/-- A root whose declared `src` subdirectory contains an undeclared file. -/
def fsSrcExtra : FSNode := .dir [("src", .dir [("x.txt", .file)])]

/-- **C3**: with allow-extra-everywhere off, the `allow_extra` flag is the
negated strict-root switch at the root (`rel = "."`) and `false` at every
other relative path, so an unmatched, unignored file is skipped exactly
when `allow_extra` holds and otherwise reported as `unexpected file`;
concretely, a root with undeclared `README.md` passes by default, fails
with `unexpected file: ./README.md` under root strictness, and an
undeclared file inside the declared `src` fails in both configurations. -/
theorem C3_root_leniency :
    (∀ (cfg : Config) (rel : String), cfg.allowExtraEverywhere = false →
      (rel = "." → allowExtraOf cfg rel = !cfg.strictRoot) ∧
      (rel ≠ "." → allowExtraOf cfg rel = false)) ∧
    (∀ (ig ad af : List String) (rel base : String)
        (es : List (String × FSNode)),
      isIgnored ig base = false → matchesAny base af = false →
      scanEntries ig ad af true rel ((base, .file) :: es) =
        scanEntries ig ad af true rel es ∧
      scanEntries ig ad af false rel ((base, .file) :: es) =
        .fail ⟨.unexpectedFile, relChild rel base⟩) ∧
    validate ⟨effectiveIgnore [] ".dirc", false, false, fsReadme⟩ 10 ruleSrc =
      .ok ∧
    validate ⟨effectiveIgnore [] ".dirc", false, true, fsReadme⟩ 10 ruleSrc =
      .fail ⟨.unexpectedFile, "./README.md"⟩ ∧
    validate ⟨effectiveIgnore [] ".dirc", false, false, fsSrcExtra⟩ 10 ruleSrc =
      .fail ⟨.unexpectedFile, "./src/x.txt"⟩ ∧
    validate ⟨effectiveIgnore [] ".dirc", false, true, fsSrcExtra⟩ 10 ruleSrc =
      .fail ⟨.unexpectedFile, "./src/x.txt"⟩ := by
  refine ⟨?_, ?_, by decide, by decide, by decide, by decide⟩
  · intro cfg rel hoff
    constructor
    · intro hrel
      subst hrel
      simp [allowExtraOf, hoff]
    · intro hrel
      have : (rel == ".") = false := beq_eq_false_iff_ne.mpr hrel
      simp [allowExtraOf, hoff, this]
  · intro ig ad af rel base es h1 h2
    constructor
    · simp [scanEntries, h1, h2]
    · simp [scanEntries, h1, h2]

/-- Witness for C3: the general clauses applied at a concrete
configuration and entry. -/
theorem C3_root_leniency_witness :
    allowExtraOf ⟨[], false, true, FSNode.dir []⟩ "." = false ∧
    scanEntries [".git"] [] [] false "." [("README.md", .file)] =
      .fail ⟨.unexpectedFile, "./README.md"⟩ := by
  obtain ⟨ha, hb, -⟩ := C3_root_leniency
  constructor
  · have h := (ha ⟨[], false, true, FSNode.dir []⟩ "." rfl).1 rfl
    simpa using h
  · have h := (hb [".git"] [] [] "." "README.md" [] (by decide) (by decide)).2
    simpa using h

/-! ## Claim C6: the effective ignore list -/

/-- A root containing the spec file `.dirc` itself next to the declared
`src` directory; root strictness on, so nothing else is tolerated. -/
def fsWithSelf : FSNode := .dir [(".dirc", .file), ("src", .dir [])]

theorem contains_mem {l : List String} {x : String}
    (h : l.contains x = true) : x ∈ l :=
  List.elem_iff.mp h

theorem mem_effectiveIgnore_git (ig : List String) (bn : String) :
    ".git" ∈ effectiveIgnore ig bn := by
  have hbase : ".git" ∈
      (if ig.contains ".git" = true then ig else ig ++ [".git"]) := by
    by_cases h : ig.contains ".git" = true
    · rw [if_pos h]; exact contains_mem h
    · rw [if_neg h]; exact List.mem_append_right _ (by simp)
  unfold effectiveIgnore
  by_cases h2 : (if ig.contains ".git" = true then
      ig else ig ++ [".git"]).contains bn = true
  · rw [if_pos h2]; exact hbase
  · rw [if_neg h2]; exact List.mem_append_left _ hbase

theorem mem_effectiveIgnore_self (ig : List String) (bn : String) :
    bn ∈ effectiveIgnore ig bn := by
  unfold effectiveIgnore
  by_cases h2 : (if ig.contains ".git" = true then
      ig else ig ++ [".git"]).contains bn = true
  · rw [if_pos h2]; exact contains_mem h2
  · rw [if_neg h2]; exact List.mem_append_right _ (by simp)

/-- **C6**: the effective ignore list always contains `.git` and the spec
file's own basename; an entry whose basename is ignored is skipped by the
entry scan before the allowed/extra/unexpected tests, and by the wildcard
re-scan before literal-sibling filtering and pattern matching; in
particular a spec file named `.dirc` inside the validated root never
triggers `unexpected file`, even under root strictness. -/
theorem C6_ignore_list :
    (∀ (ig : List String) (bn : String),
      ".git" ∈ effectiveIgnore ig bn ∧ bn ∈ effectiveIgnore ig bn) ∧
    (∀ (ig ad af : List String) (ax : Bool) (rel base : String) (n : FSNode)
        (es : List (String × FSNode)),
      isIgnored ig base = true →
      scanEntries ig ad af ax rel ((base, n) :: es) =
        scanEntries ig ad af ax rel es) ∧
    (∀ (cfg : Config) (f : Nat) (cs : List DirectoryRule) (base rel : String)
        (n : FSNode) (es : List (String × FSNode)) (comps : List String),
      isIgnored cfg.ignore base = true →
      run cfg (f + 1) (.wild cs ((base, n) :: es) rel comps) =
        run cfg f (.wild cs es rel comps)) ∧
    gmatchStr ".dirc" ".dirc" = true ∧
    validate ⟨effectiveIgnore [] ".dirc", false, true, fsWithSelf⟩ 10 ruleSrc =
      .ok := by
  refine ⟨fun ig bn =>
    ⟨mem_effectiveIgnore_git ig bn, mem_effectiveIgnore_self ig bn⟩,
    ?_, ?_, by decide, by decide⟩
  · intro ig ad af ax rel base n es h
    cases n with
    | file => simp [scanEntries, h]
    | dir es2 => simp [scanEntries, h]
  · intro cfg f cs base rel n es comps h
    cases n with
    | file => rfl
    | dir es2 => simp [run, h]

/-- Witness for C6: the skip clauses applied at a concrete ignored entry. -/
theorem C6_ignore_list_witness :
    ".git" ∈ effectiveIgnore ["build"] ".dirc" ∧
    scanEntries [".git"] [] [] false "." [(".git", .dir []), ("a.txt", .file)] =
      scanEntries [".git"] [] [] false "." [("a.txt", .file)] := by
  obtain ⟨ha, hb, -⟩ := C6_ignore_list
  exact ⟨(ha ["build"] ".dirc").1,
    hb [".git"] [] [] false "." ".git" (.dir []) [("a.txt", .file)] (by decide)⟩

/-! ## Claim C1: ambiguity handling in the wildcard re-scan -/

/-- Walking the per-pattern `if` chain past children that do not match
(or are not wildcards) consumes one unit of fuel per child and changes
nothing else. -/
theorem run_wentry_skip (cfg : Config) (base rel : String)
    (comps : List String) (m : Bool) :
    ∀ (pre rest : List DirectoryRule) (f : Nat),
      (∀ c ∈ pre, globHasMagic c.name = true → gmatchStr c.name base = false) →
      run cfg f (.wentry (pre ++ rest) m base rel comps) =
        run cfg (f - pre.length) (.wentry rest m base rel comps) := by
  intro pre
  induction pre with
  | nil => intro rest f _; rfl
  | cons c cs ih =>
      intro rest f hpre
      cases f with
      | zero =>
          have h0 : 0 - (c :: cs).length = 0 := by omega
          rw [h0]
          rfl
      | succ f =>
          have hcs : ∀ c ∈ cs, globHasMagic c.name = true →
              gmatchStr c.name base = false := fun d hd =>
            hpre d (List.mem_cons_of_mem c hd)
          have hsub : f + 1 - (c :: cs).length = f - cs.length := by
            simp only [List.length_cons]
            omega
          rw [hsub]
          show run cfg (f + 1) (.wentry (c :: (cs ++ rest)) m base rel comps) = _
          by_cases hm : globHasMagic c.name = true
          · have hmatch := hpre c (List.mem_cons_self c cs) hm
            simp only [run, hm, hmatch, Bool.false_eq_true, if_false, if_true]
            exact ih rest f hcs
          · have hmf : globHasMagic c.name = false := by
              cases h : globHasMagic c.name
              · rfl
              · exact absurd h hm
            simp only [run, hmf, Bool.false_eq_true, if_false]
            exact ih rest f hcs

/-- Once `matched` is set, the next matching wildcard child fails with the
ambiguity diagnostic. -/
theorem run_wentry_ambiguous (cfg : Config) (base rel : String)
    (comps : List String) (mid post : List DirectoryRule)
    (c₂ : DirectoryRule) (f : Nat)
    (hmid : ∀ c ∈ mid, globHasMagic c.name = true →
      gmatchStr c.name base = false)
    (h2m : globHasMagic c₂.name = true) (h2 : gmatchStr c₂.name base = true)
    (hf : mid.length < f) :
    run cfg f (.wentry (mid ++ c₂ :: post) true base rel comps) =
      .fail ⟨.ambiguousDirectoryRule, relChild rel base⟩ := by
  rw [run_wentry_skip cfg base rel comps true mid (c₂ :: post) f hmid]
  obtain ⟨f', hf'⟩ : ∃ f', f - mid.length = f' + 1 :=
    ⟨f - mid.length - 1, by omega⟩
  rw [hf']
  simp [run, h2m, h2]

/-- **C1 (amended)**: when an entry's basename matches two wildcard sibling
patterns, the generated code first recurses into the first matching child
and only then, at the second match, fails with "ambiguous directory rule";
so the run reports the ambiguity diagnostic exactly when the first child's
recursive check succeeds, reports that check's own first violation
otherwise, and in every case does not succeed — the entry is never
silently owned by the first pattern alone. -/
theorem C1_ambiguous_after_first_recursion (cfg : Config) (base rel : String)
    (comps : List String) (pre mid post : List DirectoryRule)
    (c₁ c₂ : DirectoryRule) (f : Nat)
    (hpre : ∀ c ∈ pre, globHasMagic c.name = true →
      gmatchStr c.name base = false)
    (hmid : ∀ c ∈ mid, globHasMagic c.name = true →
      gmatchStr c.name base = false)
    (h1m : globHasMagic c₁.name = true) (h1 : gmatchStr c₁.name base = true)
    (h2m : globHasMagic c₂.name = true) (h2 : gmatchStr c₂.name base = true)
    (hf : pre.length + mid.length + 1 < f) :
    run cfg f (.wentry (pre ++ c₁ :: (mid ++ c₂ :: post)) false base rel comps) =
      (match run cfg (f - pre.length - 1)
          (.node c₁ (relChild rel base) (comps ++ [base])) with
       | .ok => .fail ⟨.ambiguousDirectoryRule, relChild rel base⟩
       | .fail d => .fail d
       | .out => .out) ∧
    run cfg f (.wentry (pre ++ c₁ :: (mid ++ c₂ :: post)) false base rel comps)
      ≠ .ok := by
  rw [run_wentry_skip cfg base rel comps false pre
    (c₁ :: (mid ++ c₂ :: post)) f hpre]
  obtain ⟨f', hf'⟩ : ∃ f', f - pre.length = f' + 1 :=
    ⟨f - pre.length - 1, by omega⟩
  have hf'' : f - pre.length - 1 = f' := by omega
  rw [hf'', hf']
  have hkey : run cfg (f' + 1)
      (.wentry (c₁ :: (mid ++ c₂ :: post)) false base rel comps) =
      vthen (run cfg f' (.node c₁ (relChild rel base) (comps ++ [base])))
        (run cfg f' (.wentry (mid ++ c₂ :: post) true base rel comps)) := by
    simp [run, h1m, h1]
  rw [hkey, run_wentry_ambiguous cfg base rel comps mid post c₂ f' hmid h2m h2
    (by omega)]
  cases hr : run cfg f' (.node c₁ (relChild rel base) (comps ++ [base])) <;>
    simp [vthen]

/-- The rule tree of the spec's concrete ambiguity test: sibling wildcard
directory rules `photo-*` (here with a required literal child `sub`) and
`*-2024`. -/
def rulePhotoSub : DirectoryRule :=
  .mk "photo-*" [.mk "sub" [] [] []] [] []

def ruleYear : DirectoryRule := .mk "*-2024" [] [] []

def ruleAmbSub : DirectoryRule := .mk "." [rulePhotoSub, ruleYear] [] []

/-- A root containing exactly one (empty) directory `photo-2024`, whose
basename matches both sibling wildcard patterns. -/
def fsAmb : FSNode := .dir [("photo-2024", .dir [])]

def cfgAmb : Config := ⟨effectiveIgnore [] ".dirc", false, false, fsAmb⟩

/-- **C1 (counterexample)**: `photo-2024` matches both sibling wildcard
patterns, yet validation does not fail with the "ambiguous directory rule"
diagnostic: the code recurses into the first matching pattern `photo-*`
first and reports that subtree's violation (`missing required directory:
./photo-2024/sub`) before the ambiguity is ever examined. -/
theorem C1_counterexample :
    gmatchStr "photo-*" "photo-2024" = true ∧
    gmatchStr "*-2024" "photo-2024" = true ∧
    validate cfgAmb 10 ruleAmbSub =
      .fail ⟨.missingRequiredDirectory, "./photo-2024/sub"⟩ ∧
    validate cfgAmb 10 ruleAmbSub ≠
      .fail ⟨.ambiguousDirectoryRule, "./photo-2024"⟩ := by
  decide

/-- Witness for the amended C1: with both wildcard children free of other
requirements, the first match's recursion succeeds and the run fails with
the ambiguity diagnostic. -/
theorem C1_ambiguous_witness :
    run cfgAmb 10
      (.wentry [DirectoryRule.mk "photo-*" [] [] [], ruleYear] false
        "photo-2024" "." []) =
      .fail ⟨.ambiguousDirectoryRule, "./photo-2024"⟩ := by
  have h := C1_ambiguous_after_first_recursion cfgAmb "photo-2024" "." []
    [] [] [] (DirectoryRule.mk "photo-*" [] [] []) ruleYear 10
    (by simp) (by simp) (by decide) (by decide) (by decide) (by decide)
    (by decide)
  exact h.1.trans (by decide)

/-! ## Claim C9: the end-to-end scenario -/

/-- The spec text of the end-to-end scenario. -/
def specC9 : String := "folder1\n    .png\nfolder2\n    folder2-*.*\n"

/-- The rule tree `parse_spec` produces for it. -/
def ruleC9 : DirectoryRule :=
  .mk "." [.mk "folder1" [] ["*.png"] [], .mk "folder2" [] ["folder2-*.*"] []]
    [] []

/-- The scenario's filesystem: exactly `folder1/a.png` and
`folder1/readme.txt` under the root — no `folder2`. -/
def fsC9 : FSNode :=
  .dir [("folder1", .dir [("a.png", .file), ("readme.txt", .file)])]

def cfgC9 : Config := ⟨effectiveIgnore [] ".dirc", false, false, fsC9⟩

/-- The same filesystem with an empty `folder2` added. -/
def fsC9b : FSNode :=
  .dir [("folder1", .dir [("a.png", .file), ("readme.txt", .file)]),
    ("folder2", .dir [])]

def cfgC9b : Config := ⟨effectiveIgnore [] ".dirc", false, false, fsC9b⟩

/-- **C9 (counterexample)**: on the scenario exactly as stated — root
contents only `folder1/{a.png,readme.txt}` — validation does fail, but the
first violation is the missing required directory `folder2` (a declared
literal child), not `unexpected file: folder1/readme.txt`. -/
theorem C9_counterexample :
    parse_spec specC9 = .ok ruleC9 ∧
    validate cfgC9 10 ruleC9 =
      .fail ⟨.missingRequiredDirectory, "./folder2"⟩ ∧
    validate cfgC9 10 ruleC9 ≠ .fail ⟨.unexpectedFile, "./folder1/readme.txt"⟩ ∧
    renderDiag ⟨.missingRequiredDirectory, "./folder2"⟩ ≠
      "unexpected file: folder1/readme.txt" := by
  refine ⟨rfl, by decide, by decide, by decide⟩

/-- **C9 (amended)**: the verdict is failure with first violation
`missing required directory: ./folder2`; when the root additionally
contains an empty `folder2`, the run fails instead with
`unexpected file: ./folder1/readme.txt` (reported paths carry the `./`
prefix the script builds from `rel = "."`). -/
theorem C9_amended :
    parse_spec specC9 = .ok ruleC9 ∧
    validate cfgC9 10 ruleC9 =
      .fail ⟨.missingRequiredDirectory, "./folder2"⟩ ∧
    renderDiag ⟨.missingRequiredDirectory, "./folder2"⟩ =
      "missing required directory: ./folder2" ∧
    validate cfgC9b 10 ruleC9 =
      .fail ⟨.unexpectedFile, "./folder1/readme.txt"⟩ ∧
    renderDiag ⟨.unexpectedFile, "./folder1/readme.txt"⟩ =
      "unexpected file: ./folder1/readme.txt" := by
  refine ⟨rfl, by decide, by decide, by decide, by decide⟩

/-! ## Claim C10: a bad root argument silently falls back to `.` -/

/-- **C10**: when the emitted script is invoked with a non-empty root-path
argument that does not name a directory, it replaces the root by `.` and
validates the current directory's tree; the missing-directory check then
runs against `.` (which exists), so no "missing directory" diagnostic is
produced for the bad argument. -/
theorem C10_bad_root_falls_back (world : String → Option FSNode) (a : String)
    (ig : List String) (aee sr : Bool) (f : Nat) (r : DirectoryRule)
    (es : List (String × FSNode))
    (ha : a ≠ "") (hnd : isDirW world a = false)
    (hcwd : world "." = some (.dir es)) :
    resolveRoot world (some a) = "." ∧
    runScript world (some a) ig aee sr f r =
      validate ⟨ig, aee, sr, .dir es⟩ f r ∧
    stageMissing ⟨ig, aee, sr, .dir es⟩ "." [] = .ok := by
  have hne : (a == "") = false := beq_eq_false_iff_ne.mpr ha
  have hroot : resolveRoot world (some a) = "." := by
    simp [resolveRoot, hne, hnd]
    intro h
    exact absurd h ha
  refine ⟨hroot, ?_, rfl⟩
  unfold runScript
  rw [hroot, hcwd]
  rfl

/-- Witness for C10: a world holding only the current directory, probed
with the argument `missing`. -/
theorem C10_bad_root_falls_back_witness :
    resolveRoot (fun p => if p = "." then some (.dir []) else none)
      (some "missing") = "." ∧
    runScript (fun p => if p = "." then some (.dir []) else none)
      (some "missing") [] false false 5 (.mk "." [] [] []) =
      validate ⟨[], false, false, .dir []⟩ 5 (.mk "." [] [] []) := by
  have h := C10_bad_root_falls_back
    (fun p => if p = "." then some (.dir []) else none) "missing"
    [] false false 5 (.mk "." [] [] []) []
    (by decide) (by rfl) (by rfl)
  exact ⟨h.1, h.2.1⟩

/-! ## Claim C8: file leaves may not own children -/

/-- **C8**: if the previous processed line was classified as a file leaf at
level `L` (`last_was_file_at_level = L`) and the current non-blank,
non-comment line's level exceeds `L`, parsing stops with the
"file patterns cannot have children" error at that line's 1-based number —
both when an indentation unit is already established (first clause) and
when the current line is the first indented one (second clause); moreover
a file-classified line never creates a rule node: it only extends the
pattern/required lists of the already-open top frame (third clause), so no
file-pattern or required-file entry of any returned tree owns children. -/
theorem C8_file_leaf_children_error :
    (∀ (raw : List Char) (rest : List (List Char)) (idx : Nat) (st : PState)
        (L u : Nat),
      st.lastFile = some L →
      st.indentUnit = some u → u ≠ 0 →
      (stripWs raw).isEmpty = false →
      headIs '#' (lstripWs raw) = false →
      (rstripWs (stripInlineComment (rstripWs
        ((expandTabs4 raw).drop
          (countLeadingSpaces (expandTabs4 raw)))))).isEmpty = false →
      countLeadingSpaces (expandTabs4 raw) ≠ 0 →
      countLeadingSpaces (expandTabs4 raw) % u = 0 →
      L < countLeadingSpaces (expandTabs4 raw) / u →
      runLines (raw :: rest) idx st = .error ⟨idx, .fileChildren⟩) ∧
    (∀ (raw : List Char) (rest : List (List Char)) (idx : Nat) (st : PState),
      st.lastFile = some 0 →
      st.indentUnit = none →
      (stripWs raw).isEmpty = false →
      headIs '#' (lstripWs raw) = false →
      (rstripWs (stripInlineComment (rstripWs
        ((expandTabs4 raw).drop
          (countLeadingSpaces (expandTabs4 raw)))))).isEmpty = false →
      countLeadingSpaces (expandTabs4 raw) ≠ 0 →
      runLines (raw :: rest) idx st = .error ⟨idx, .fileChildren⟩) ∧
    (∀ (st1 : List Frame) (pat : String),
      (appendFilePat st1 pat).map Frame.name = st1.map Frame.name ∧
      (appendFilePat st1 pat).map Frame.subdirsRev =
        st1.map Frame.subdirsRev ∧
      (appendReqFile st1 pat).map Frame.name = st1.map Frame.name ∧
      (appendReqFile st1 pat).map Frame.subdirsRev =
        st1.map Frame.subdirsRev) := by
  refine ⟨?_, ?_, ?_⟩
  · intro raw rest idx st L u hL hU hu0 hblank hcomment hcr hind hmod hlt
    have hp : processLine raw rest idx st = .error ⟨idx, .fileChildren⟩ := by
      unfold processLine processCore unitLevelOf processTail
      simp [hblank, hcomment, hcr, hU, hu0, hind, hmod, hL, hlt]
    simp [runLines, hp]
  · intro raw rest idx st hL hU hblank hcomment hcr hind
    have hp : processLine raw rest idx st = .error ⟨idx, .fileChildren⟩ := by
      unfold processLine processCore unitLevelOf processTail
      simp [hblank, hcomment, hcr, hU, hind, hL,
        Nat.mod_self, Nat.div_self (Nat.pos_of_ne_zero hind)]
    simp [runLines, hp]
  · intro st1 pat
    cases st1 with
    | nil => exact ⟨rfl, rfl, rfl, rfl⟩
    | cons f rest => simp [appendFilePat, appendReqFile]

/-- Witness for C8: from a parser state whose previous line was a
file-pattern leaf at level 0, a following deeper line `    x` stops
parsing with the "file patterns cannot have children" error at its line
number, via the first-indented-line clause. -/
theorem C8_file_leaf_children_error_witness :
    runLines ["    x".data] 2
      ⟨[⟨".", [], ["*.png"], []⟩], none, some 0⟩ =
      .error ⟨2, .fileChildren⟩ :=
  C8_file_leaf_children_error.2.1 "    x".data [] 2
    ⟨[⟨".", [], ["*.png"], []⟩], none, some 0⟩
    (by rfl) (by rfl) (by decide) (by decide) (by decide) (by decide)

/-! ## Claim C7: indentation-unit invariance

A spec is abstracted as a list of (level, content) pairs; `renderLine u`
indents each content with `u` spaces per level.  `goodContent` captures a
line that renders faithfully: non-empty, free of line boundaries and tabs, not
starting with whitespace, and not a whole-line comment. -/

def renderLine (u : Nat) (lc : Nat × List Char) : List Char :=
  List.replicate (u * lc.1) ' ' ++ lc.2

def renderSpec (u : Nat) (ls : List (Nat × List Char)) : String :=
  String.mk (joinWith ['\n'] (ls.map (renderLine u)))

def goodContent (cs : List Char) : Prop :=
  cs ≠ [] ∧ (∀ c ∈ cs, lineSep c = false ∧ c ≠ '\t') ∧
    wsChar (cs.headD 'x') = false ∧ headIs '#' cs = false

theorem lineSep_ncr {c : Char} (h : lineSep c = false) : (c == '\r') = false := by
  cases hcr : c == '\r'
  · rfl
  · have ht : lineSep c = true := by simp [lineSep, hcr]
    rw [ht] at h
    exact absurd h (by simp)

theorem splitNL_noNL {a : List Char} (h : ∀ c ∈ a, lineSep c = false) :
    splitNL a = [a] := by
  induction a with
  | nil => rfl
  | cons c cs ih =>
      have hc := h c (List.mem_cons_self c cs)
      have hcs : ∀ c ∈ cs, lineSep c = false := fun d hd =>
        h d (List.mem_cons_of_mem c hd)
      simp only [splitNL] at ih ⊢
      simp [splitNLGo, lineSep_ncr hc, hc, ih hcs]

theorem splitNL_append {a : List Char} (h : ∀ c ∈ a, lineSep c = false)
    (t : List Char) : splitNL (a ++ '\n' :: t) = a :: splitNL t := by
  induction a with
  | nil => rfl
  | cons c cs ih =>
      have hc := h c (List.mem_cons_self c cs)
      have hcs : ∀ c ∈ cs, lineSep c = false := fun d hd =>
        h d (List.mem_cons_of_mem c hd)
      simp only [splitNL] at ih ⊢
      simp [splitNLGo, lineSep_ncr hc, hc, ih hcs]

theorem splitNL_join : ∀ (parts : List (List Char)), parts ≠ [] →
    (∀ a ∈ parts, ∀ c ∈ a, lineSep c = false) →
    splitNL (joinWith ['\n'] parts) = parts := by
  intro parts
  induction parts with
  | nil => intro h; exact absurd rfl h
  | cons a rest ih =>
      intro _ hall
      cases rest with
      | nil =>
          show splitNL (joinWith ['\n'] [a]) = [a]
          exact splitNL_noNL (hall a (List.mem_cons_self a []))
      | cons b r =>
          show splitNL (a ++ ['\n'] ++ joinWith ['\n'] (b :: r)) = _
          rw [List.append_assoc]
          show splitNL (a ++ '\n' :: joinWith ['\n'] (b :: r)) = _
          rw [splitNL_append (hall a (List.mem_cons_self a (b :: r)))]
          rw [ih (by simp) (fun x hx => hall x (List.mem_cons_of_mem a hx))]

theorem lastIsSep_of_forall {l : List Char} (hne : l ≠ [])
    (h : ∀ c ∈ l, lineSep c = false) : lastIsSep l = false := by
  induction l with
  | nil => exact absurd rfl hne
  | cons c cs ih =>
      cases cs with
      | nil => simp [lastIsSep, h c (List.mem_cons_self c [])]
      | cons d ds =>
          show lastIsSep (c :: d :: ds) = false
          have hrest := ih (by simp) (fun x hx => h x (List.mem_cons_of_mem c hx))
          simp only [lastIsSep, List.getLast?_cons_cons] at hrest ⊢
          exact hrest

theorem lastIsSep_append {xs ys : List Char} (h : ys ≠ []) :
    lastIsSep (xs ++ ys) = lastIsSep ys := by
  unfold lastIsSep
  rw [List.getLast?_append_of_ne_nil _ h]

theorem lastIsSep_joinWith : ∀ (parts : List (List Char)),
    (∀ a ∈ parts, a ≠ [] ∧ ∀ c ∈ a, lineSep c = false) →
    parts ≠ [] → lastIsSep (joinWith ['\n'] parts) = false := by
  intro parts
  induction parts with
  | nil => intro _ h; exact absurd rfl h
  | cons a rest ih =>
      intro hall _
      cases rest with
      | nil =>
          show lastIsSep (joinWith ['\n'] [a]) = false
          exact lastIsSep_of_forall (hall a (List.mem_cons_self a [])).1
            (hall a (List.mem_cons_self a [])).2
      | cons b r =>
          show lastIsSep (a ++ ['\n'] ++ joinWith ['\n'] (b :: r)) = false
          have hjoin_ne : joinWith ['\n'] (b :: r) ≠ [] := by
            refine joinWith_ne_nil ⟨b, List.mem_cons_self b r, ?_⟩ '\n' []
            exact (hall b (List.mem_cons_of_mem a (List.mem_cons_self b r))).1
          rw [lastIsSep_append hjoin_ne]
          exact ih (fun x hx => hall x (List.mem_cons_of_mem a hx)) (by simp)

/-- Splitting the joined rendered lines recovers them. -/
theorem splitLines_join (lines : List (List Char))
    (h : ∀ l ∈ lines, l ≠ [] ∧ ∀ c ∈ l, lineSep c = false) :
    splitLines (joinWith ['\n'] lines) = lines := by
  cases lines with
  | nil => rfl
  | cons a rest =>
      have hjoin := splitNL_join (a :: rest) (by simp)
        (fun x hx c hc => (h x hx).2 c hc)
      have hlast := lastIsSep_joinWith (a :: rest) h (by simp)
      unfold splitLines
      have hne : joinWith ['\n'] (a :: rest) ≠ [] := by
        refine joinWith_ne_nil ⟨a, List.mem_cons_self a rest, (h a (List.mem_cons_self a rest)).1⟩ '\n' []
      cases hj : joinWith ['\n'] (a :: rest) with
      | nil => exact absurd hj hne
      | cons x xs =>
          have hlast2 : lastIsSep (x :: xs) = false := by
            rw [← hj]; exact hlast
          show (if lastIsSep (x :: xs) then
              (splitNL (x :: xs)).dropLast else splitNL (x :: xs)) = a :: rest
          rw [if_neg (by simp [hlast2]), ← hj]
          exact hjoin

theorem lstripWs_replicate_space (k : Nat) (cs : List Char) :
    lstripWs (List.replicate k ' ' ++ cs) = lstripWs cs := by
  induction k with
  | zero => rfl
  | succ k ih =>
      simp only [List.replicate_succ, List.cons_append, lstripWs,
        List.dropWhile_cons, wsChar]
      simp only [lstripWs] at ih
      simp [ih]

theorem lstripWs_of_head {cs : List Char} (h : wsChar (cs.headD 'x') = false) :
    lstripWs cs = cs := by
  cases cs with
  | nil => rfl
  | cons c cs' => simp [lstripWs, List.dropWhile_cons, show wsChar c = false from h]

theorem rstripWs_ne_nil {cs : List Char} (hne : cs ≠ [])
    (h : wsChar (cs.headD 'x') = false) : rstripWs cs ≠ [] := by
  intro hcon
  have hall : ∀ c ∈ cs.reverse, wsChar c = true := by
    have : lstripWs cs.reverse = [] := by
      have := congrArg List.reverse hcon
      simpa [rstripWs] using this
    intro c hc
    exact List.dropWhile_eq_nil_iff.mp this c hc
  cases cs with
  | nil => exact hne rfl
  | cons c cs' =>
      have hc : wsChar c = true := hall c (by simp)
      rw [show (c :: cs').headD 'x' = c from rfl] at h
      rw [h] at hc
      cases hc

theorem stripWs_render (u : Nat) (lvl : Nat) {cs : List Char}
    (h : wsChar (cs.headD 'x') = false) :
    stripWs (List.replicate (u * lvl) ' ' ++ cs) = rstripWs cs := by
  unfold stripWs
  rw [lstripWs_replicate_space, lstripWs_of_head h]

theorem expandTabsGo_id {cs : List Char} (h : ∀ c ∈ cs, c ≠ '\t') :
    ∀ col, expandTabsGo col cs = cs := by
  induction cs with
  | nil => intro col; rfl
  | cons c cs' ih =>
      intro col
      have hc : (c == '\t') = false :=
        beq_eq_false_iff_ne.mpr (h c (List.mem_cons_self c cs'))
      simp [expandTabsGo, hc, ih (fun d hd => h d (List.mem_cons_of_mem c hd))]

theorem countLeadingSpaces_render (k : Nat) {cs : List Char} (hne : cs ≠ [])
    (h : wsChar (cs.headD 'x') = false) :
    countLeadingSpaces (List.replicate k ' ' ++ cs) = k := by
  induction k with
  | zero =>
      cases cs with
      | nil => exact absurd rfl hne
      | cons c cs' =>
          have hc : (c == ' ') = false := by
            simp only [wsChar, Bool.or_eq_false_iff] at h
            exact h.1.1.1.1.1
          simp [countLeadingSpaces, List.takeWhile_cons, hc]
  | succ k ih =>
      simp only [List.replicate_succ, List.cons_append, countLeadingSpaces,
        List.takeWhile_cons, beq_self_eq_true, if_true, List.length_cons]
      have := ih
      simp only [countLeadingSpaces] at this
      rw [this]

theorem drop_render (k : Nat) (cs : List Char) :
    (List.replicate k ' ' ++ cs).drop k = cs := by
  have h := List.drop_left (List.replicate k ' ') cs
  rw [List.length_replicate] at h
  exact h

/-- A rendered line is non-blank and not a comment, so the lookahead keeps
exactly the first remaining abstract line. -/
theorem nextNonempty_render (u : Nat) :
    ∀ (rest : List (Nat × List Char)),
      (∀ lc ∈ rest, goodContent lc.2) →
      nextNonempty (rest.map (renderLine u)) =
        (rest.head?).map (renderLine u) := by
  intro rest hrest
  cases rest with
  | nil => rfl
  | cons lc rest' =>
      obtain ⟨hne, -, hhead, hhash⟩ := hrest lc (List.mem_cons_self lc rest')
      have hstrip : (stripWs (renderLine u lc)).isEmpty = false := by
        show (stripWs (List.replicate (u * lc.1) ' ' ++ lc.2)).isEmpty = false
        rw [stripWs_render u lc.1 hhead]
        cases hr : rstripWs lc.2 with
        | nil => exact absurd hr (rstripWs_ne_nil hne hhead)
        | cons x xs => rfl
      have hhash2 : headIs '#' (lstripWs (renderLine u lc)) = false := by
        show headIs '#' (lstripWs (List.replicate (u * lc.1) ' ' ++ lc.2)) = false
        rw [lstripWs_replicate_space, lstripWs_of_head hhead]
        exact hhash
      unfold nextNonempty
      simp only [List.map_cons, List.find?_cons, hstrip, hhash2]
      rfl

/-- On a rendered line, `processLine` reduces to `processCore` applied to
the scaled indentation, the raw content, and the scaled lookahead level. -/
theorem processLine_render (u : Nat) (lvl : Nat) (cs : List Char)
    (hg : goodContent cs) (rest : List (Nat × List Char))
    (hrest : ∀ lc ∈ rest, goodContent lc.2) (idx : Nat) (st : PState) :
    processLine (renderLine u (lvl, cs)) (rest.map (renderLine u)) idx st =
      processCore (u * lvl) cs
        ((rest.head?).map (fun lc => u * lc.1)) idx st := by
  obtain ⟨hne, hnt, hhead, hhash⟩ := hg
  have hstrip : (stripWs (renderLine u (lvl, cs))).isEmpty = false := by
    show (stripWs (List.replicate (u * lvl) ' ' ++ cs)).isEmpty = false
    rw [stripWs_render u lvl hhead]
    cases hr : rstripWs cs with
    | nil => exact absurd hr (rstripWs_ne_nil hne hhead)
    | cons x xs => rfl
  have hhash2 : headIs '#' (lstripWs (renderLine u (lvl, cs))) = false := by
    show headIs '#' (lstripWs (List.replicate (u * lvl) ' ' ++ cs)) = false
    rw [lstripWs_replicate_space, lstripWs_of_head hhead]
    exact hhash
  have hexp : expandTabs4 (renderLine u (lvl, cs)) = renderLine u (lvl, cs) := by
    apply expandTabsGo_id
    intro c hc
    rcases List.mem_append.mp hc with h | h
    · have := List.eq_of_mem_replicate h
      subst this
      decide
    · exact (hnt c h).2
  have hcount : countLeadingSpaces (renderLine u (lvl, cs)) = u * lvl :=
    countLeadingSpaces_render (u * lvl) hne hhead
  have hdrop : (renderLine u (lvl, cs)).drop (u * lvl) = cs :=
    drop_render (u * lvl) cs
  have hlook : ((nextNonempty (rest.map (renderLine u))).map
      (fun nxt => countLeadingSpaces (expandTabs4 nxt))) =
      (rest.head?).map (fun lc => u * lc.1) := by
    rw [nextNonempty_render u rest hrest]
    cases rest with
    | nil => rfl
    | cons lc rest' =>
        obtain ⟨hne', -, hhead', -⟩ := hrest lc (List.mem_cons_self lc rest')
        have hexp' : expandTabs4 (renderLine u lc) = renderLine u lc := by
          apply expandTabsGo_id
          intro c hc
          rcases List.mem_append.mp hc with h | h
          · have := List.eq_of_mem_replicate h
            subst this
            decide
          · exact ((hrest lc (List.mem_cons_self lc rest')).2.1 c h).2
        show some (countLeadingSpaces (expandTabs4 (renderLine u lc))) =
          some (u * lc.1)
        rw [hexp']
        show some (countLeadingSpaces (List.replicate (u * lc.1) ' ' ++ lc.2)) = _
        rw [countLeadingSpaces_render (u * lc.1) hne' hhead']
  unfold processLine
  rw [if_neg (by simp [hstrip]), if_neg (by simp [hhash2])]
  rw [hexp, hcount, hdrop, hlook]

/-- Scaling a parser state by an indentation factor: only the stored unit
changes. -/
def stScale (u : Nat) (s : PState) : PState :=
  ⟨s.stack, s.indentUnit.map (fun x => u * x), s.lastFile⟩

theorem unitLevelOf_scale (u : Nat) (hu : 0 < u) (lvl : Nat) (s : PState)
    (idx : Nat) :
    unitLevelOf (u * lvl) (stScale u s) idx =
      (unitLevelOf lvl s idx).map (fun p => (p.1.map (fun x => u * x), p.2)) := by
  by_cases h0 : lvl = 0
  · subst h0
    simp [unitLevelOf, stScale, Except.map]
  · have hne : u * lvl ≠ 0 := Nat.mul_ne_zero (hu.ne') h0
    unfold unitLevelOf
    rw [if_neg hne, if_neg h0]
    show (match (stScale u s).indentUnit with
      | none => _
      | some u' => _) = _
    cases hs : s.indentUnit with
    | none =>
        have : (stScale u s).indentUnit = none := by simp [stScale, hs]
        rw [this]
        simp only [hs]
        rw [if_neg hne, if_neg h0]
        simp only [Nat.mod_self, ne_eq, not_true_eq_false, if_false,
          ite_false, Bool.false_eq_true]
        have d1 : u * lvl / (u * lvl) = 1 :=
          Nat.div_self (Nat.pos_of_ne_zero hne)
        have d2 : lvl / lvl = 1 := Nat.div_self (Nat.pos_of_ne_zero h0)
        simp [d1, d2, Except.map]
    | some L0 =>
        have : (stScale u s).indentUnit = some (u * L0) := by simp [stScale, hs]
        rw [this]
        simp only [hs]
        by_cases hL0 : L0 = 0
        · subst hL0
          simp [Except.map]
        · have hprod : u * L0 ≠ 0 := Nat.mul_ne_zero (hu.ne') hL0
          rw [if_neg hprod, if_neg hL0]
          have hmod : u * lvl % (u * L0) = u * (lvl % L0) :=
            Nat.mul_mod_mul_left u lvl L0
          have hdiv : u * lvl / (u * L0) = lvl / L0 :=
            Nat.mul_div_mul_left lvl L0 hu
          by_cases hm : lvl % L0 = 0
          · have hm2 : u * lvl % (u * L0) = 0 := by rw [hmod, hm, Nat.mul_zero]
            simp [hm, hm2, hdiv, Except.map]
          · have hm2 : u * lvl % (u * L0) ≠ 0 := by
              rw [hmod]
              exact Nat.mul_ne_zero (hu.ne') hm
            simp [hm, hm2, Except.map]

theorem processTail_scale (u : Nat) (hu : 0 < u) (unit0 : Option Nat)
    (level ind0 : Nat) (content0 : List Char) (lk : Option Nat) (idx : Nat)
    (s : PState) :
    processTail (unit0.map (fun x => u * x)) level (u * ind0) content0
        (lk.map (fun x => u * x)) idx (stScale u s) =
      (processTail unit0 level ind0 content0 lk idx s).map (stScale u) := by
  unfold processTail
  have hlf : (stScale u s).lastFile = s.lastFile := rfl
  rw [hlf]
  by_cases hfile : (match s.lastFile with
      | some l => decide (l < level) | none => false) = true
  · simp [hfile, Except.map]
  · simp only [hfile, Bool.false_eq_true, if_false]
    have hstack : (stScale u s).stack = s.stack := rfl
    rw [hstack]
    by_cases hjump : (popTo s.stack (level + 1)).length ≠ level + 1
    · simp [hjump, Except.map]
    · simp only [hjump, if_false]
      have hhc : (match lk.map (fun x => u * x) with
          | none => false
          | some ni =>
              match unit0.map (fun x => u * x) with
              | none => decide (u * ind0 < ni)
              | some uu => decide (u * ind0 < ni) && ni % uu == 0 &&
                  decide (level < ni / uu)) =
          (match lk with
          | none => false
          | some ni =>
              match unit0 with
              | none => decide (ind0 < ni)
              | some uu => decide (ind0 < ni) && ni % uu == 0 &&
                  decide (level < ni / uu)) := by
        cases lk with
        | none => rfl
        | some ni =>
            cases unit0 with
            | none =>
                show decide (u * ind0 < u * ni) = decide (ind0 < ni)
                congr 1
                exact propext (Nat.mul_lt_mul_left hu)
            | some uu =>
                have e1 : decide (u * ind0 < u * ni) = decide (ind0 < ni) := by
                  congr 1
                  exact propext (Nat.mul_lt_mul_left hu)
                have e2 : (u * ni % (u * uu) == 0) = (ni % uu == 0) := by
                  rw [Nat.mul_mod_mul_left]
                  cases hm : ni % uu with
                  | zero => simp
                  | succ k =>
                      have hk : u * (k + 1) ≠ 0 :=
                        Nat.mul_ne_zero (hu.ne') (by omega)
                      simp [hk]
                have e3 : decide (level < u * ni / (u * uu)) =
                    decide (level < ni / uu) := by
                  rw [Nat.mul_div_mul_left ni uu hu]
                show (decide (u * ind0 < u * ni) && (u * ni % (u * uu) == 0) &&
                    decide (level < u * ni / (u * uu))) =
                  (decide (ind0 < ni) && (ni % uu == 0) &&
                    decide (level < ni / uu))
                rw [e1, e2, e3]
      rw [hhc]
      split_ifs <;> simp [Except.map, stScale]

theorem processCore_scale (u : Nat) (hu : 0 < u) (lvl : Nat)
    (body : List Char) (lk : Option Nat) (idx : Nat) (s : PState) :
    processCore (u * lvl) body (lk.map (fun x => u * x)) idx (stScale u s) =
      (processCore lvl body lk idx s).map (stScale u) := by
  unfold processCore
  by_cases hcr : (rstripWs (stripInlineComment (rstripWs body))).isEmpty = true
  · simp [hcr, Except.map]
  · rw [if_neg hcr, if_neg hcr, unitLevelOf_scale u hu lvl s idx]
    cases hul : unitLevelOf lvl s idx with
    | error e => rfl
    | ok p =>
        obtain ⟨unit0, level⟩ := p
        exact processTail_scale u hu unit0 level lvl
          (stripWs (rstripWs (stripInlineComment (rstripWs body)))) lk idx s

/-- The unit-independent abstract run over (level, content) lines. -/
def runAbs : List (Nat × List Char) → Nat → PState → Except PError PState
  | [], _, st => .ok st
  | lc :: rest, idx, st =>
      match processCore lc.1 lc.2 ((rest.head?).map (fun x => x.1)) idx st with
      | .error e => .error e
      | .ok st' => runAbs rest (idx + 1) st'

theorem runLines_render (u : Nat) (hu : 0 < u) :
    ∀ (ls : List (Nat × List Char)) (idx : Nat) (s : PState),
      (∀ lc ∈ ls, goodContent lc.2) →
      runLines (ls.map (renderLine u)) idx (stScale u s) =
        (runAbs ls idx s).map (stScale u) := by
  intro ls
  induction ls with
  | nil => intro idx s _; rfl
  | cons lc rest ih =>
      intro idx s hg
      obtain ⟨lvl, cs⟩ := lc
      show runLines (renderLine u (lvl, cs) :: rest.map (renderLine u)) idx
        (stScale u s) = _
      have hmm : ((rest.head?).map (fun lc => u * lc.1)) =
          ((rest.head?).map (fun x => x.1)).map (fun x => u * x) := by
        cases rest.head? <;> rfl
      have hpl := processLine_render u lvl cs
        (hg (lvl, cs) (List.mem_cons_self _ _)) rest
        (fun x hx => hg x (List.mem_cons_of_mem _ hx)) idx (stScale u s)
      rw [hmm] at hpl
      simp only [runLines]
      rw [hpl, processCore_scale u hu lvl cs ((rest.head?).map (fun x => x.1))
        idx s]
      cases hc : processCore lvl cs ((rest.head?).map (fun x => x.1)) idx s with
      | error e => simp [runAbs, hc, Except.map]
      | ok st' =>
          simp only [runAbs, hc, Except.map]
          exact ih (idx + 1) st'
            (fun x hx => hg x (List.mem_cons_of_mem _ hx))

/-- **C7**: (1) a spec rendered with a consistent 2-space unit parses to
exactly the same result (tree or structural error) as the same abstract
spec rendered with a consistent 4-space unit; (2) a non-blank, non-comment
line whose indentation is not a multiple of the established unit makes the
whole parse stop with the inconsistent-indentation error carrying that
line's 1-based number, so no tree is returned. -/
theorem C7_indent_unit_invariance :
    (∀ (ls : List (Nat × List Char)), (∀ lc ∈ ls, goodContent lc.2) →
      parse_spec (renderSpec 2 ls) = parse_spec (renderSpec 4 ls)) ∧
    (∀ (raw : List Char) (rest : List (List Char)) (idx : Nat) (st : PState)
        (u : Nat),
      st.indentUnit = some u → u ≠ 0 →
      (stripWs raw).isEmpty = false →
      headIs '#' (lstripWs raw) = false →
      (rstripWs (stripInlineComment (rstripWs
        ((expandTabs4 raw).drop
          (countLeadingSpaces (expandTabs4 raw)))))).isEmpty = false →
      countLeadingSpaces (expandTabs4 raw) % u ≠ 0 →
      runLines (raw :: rest) idx st = .error ⟨idx, .notMultiple⟩) := by
  constructor
  · intro ls hg
    have key : ∀ u : Nat, 0 < u → parse_spec (renderSpec u ls) =
        (match runAbs ls 1 initPState with
         | .error e => .error e
         | .ok st => .ok (finalizeStack st.stack)) := by
      intro u hu
      unfold parse_spec renderSpec
      have hdata : (String.mk (joinWith ['\n'] (ls.map (renderLine u)))).data =
          joinWith ['\n'] (ls.map (renderLine u)) := rfl
      rw [hdata, splitLines_join (ls.map (renderLine u)) ?hlines]
      case hlines =>
        intro l hl
        obtain ⟨lc, hlc, rfl⟩ := List.mem_map.mp hl
        obtain ⟨hne, hnt, -, -⟩ := hg lc hlc
        constructor
        · show List.replicate (u * lc.1) ' ' ++ lc.2 ≠ []
          simp [hne]
        · intro c hc
          rcases List.mem_append.mp hc with h | h
          · have := List.eq_of_mem_replicate h
            subst this
            decide
          · exact (hnt c h).1
      have h := runLines_render u hu ls 1 initPState hg
      rw [show stScale u initPState = initPState from rfl] at h
      rw [h]
      cases runAbs ls 1 initPState with
      | error e => rfl
      | ok st => rfl
    rw [key 2 (by omega), key 4 (by omega)]
  · intro raw rest idx st u hU hu0 hblank hcomment hcr hmod
    have hind : countLeadingSpaces (expandTabs4 raw) ≠ 0 := by
      intro h
      rw [h] at hmod
      exact hmod (Nat.zero_mod u)
    have hp : processLine raw rest idx st = .error ⟨idx, .notMultiple⟩ := by
      unfold processLine processCore unitLevelOf
      simp [hblank, hcomment, hcr, hU, hu0, hind, hmod]
    simp [runLines, hp]

/-- Witness for C7: the two-line spec `a` / level-1 `b` parses identically
at 2-space and 4-space rendering, and a 3-space-indented line under an
established 2-space unit stops the parse with the inconsistent-indentation
error at its line number (line 3 of `a`, `  b`, `   c`). -/
theorem C7_indent_unit_invariance_witness :
    parse_spec (renderSpec 2 [(0, "a".data), (1, "b".data)]) =
      parse_spec (renderSpec 4 [(0, "a".data), (1, "b".data)]) ∧
    runLines ["   c".data] 3
      ⟨[⟨"b", [], [], []⟩, ⟨".", [], [], []⟩], some 2, none⟩ =
      .error ⟨3, .notMultiple⟩ ∧
    parse_spec "a\n  b\n   c\n" = .error ⟨3, .notMultiple⟩ := by
  refine ⟨?_, ?_, by rfl⟩
  · refine C7_indent_unit_invariance.1 [(0, "a".data), (1, "b".data)] ?_
    intro lc hlc
    rcases List.mem_cons.mp hlc with h | h
    · subst h
      exact ⟨by decide, by decide, by decide, by decide⟩
    · rcases List.mem_cons.mp h with h2 | h2
      · subst h2
        exact ⟨by decide, by decide, by decide, by decide⟩
      · simp at h2
  · exact C7_indent_unit_invariance.2 "   c".data [] 3
      ⟨[⟨"b", [], [], []⟩, ⟨".", [], [], []⟩], some 2, none⟩ 2
      (by rfl) (by decide) (by decide) (by decide) (by decide) (by decide)
